import Mathlib

/-!
# Verification of the `finiteautomation` generic FSM engine

Shallow embedding of the Go repository `DMSAVentures/finiteautomation`:
a generic finite-state-machine engine (configuration validation,
single-step and batch execution, state history, acceptance queries)
together with its binary modulo-3 example wrapper.

Go maps (`map[S]map[I]S`, and the derived `map[I]struct{}` /
`map[S]struct{}` lookup sets) are modelled as association lists and plain
lists; lookup and membership coincide with the Go map semantics because Go
map keys are unique and only membership / lookup are ever observed.
Mutating methods are modelled by explicit state passing: a method that in
Go mutates the receiver and returns an error becomes a Lean function
returning a pair of the new receiver and an optional error, with the
convention that a `(f, some e)` result returns the receiver exactly as it
was at the failure point (Go mutates in place, so the receiver keeps every
mutation applied before the failure).
-/

namespace FiniteAutomation

/-- Association-list lookup, modelling Go map indexing `m[k]` with its
`exists` flag: `none` means the key is absent. -/
def lookupA {α β : Type} [DecidableEq α] (k : α) : List (α × β) → Option β
  | [] => none
  | (a, b) :: rest => if a = k then some b else lookupA k rest

/-- Embedding of `FSMConfig[S, I]`: states, alphabet, initial state, final
states, and the nested transition table `map[S]map[I]S`. -/
structure FSMConfig (S I : Type) where
  States : List S
  Alphabet : List I
  InitialState : S
  FinalStates : List S
  Transitions : List (S × List (I × S))

/-- Embedding of the error values of the engine.  Each constructor is one
of the distinct formatted error values the Go code produces (the Go code
wraps sentinel errors such as `ErrNoTransition` or `ErrInvalidTransition`
with `fmt.Errorf`, and the wrapped messages differ per condition; each
constructor carries exactly the data the corresponding message carries). -/
inductive FSMError (S I : Type) where
  /-- `ErrNoStates`: no states defined. -/
  | errNoStates : FSMError S I
  /-- `ErrNoAlphabet`: no alphabet defined. -/
  | errNoAlphabet : FSMError S I
  /-- `ErrInvalidInitial`: initial state not in states list. -/
  | errInvalidInitial : FSMError S I
  /-- `ErrInvalidFinal` wrapped with the offending final state. -/
  | errInvalidFinal (s : S) : FSMError S I
  /-- `ErrInvalidTransition` wrapped with `from state s`. -/
  | errInvalidTransitionFrom (s : S) : FSMError S I
  /-- `ErrInvalidInput` wrapped with `input i not in alphabet`. -/
  | errInvalidInputSym (i : I) : FSMError S I
  /-- `ErrInvalidTransition` wrapped with `to state s`. -/
  | errInvalidTransitionTo (s : S) : FSMError S I
  /-- `ErrNoTransition` wrapped with `for state s`. -/
  | errNoTransitionForState (s : S) : FSMError S I
  /-- `ErrNoTransition` wrapped with `from state s with input i`. -/
  | errNoTransitionFromWith (s : S) (i : I) : FSMError S I
  /-- `Process`'s wrapper `error at position k`. -/
  | errAtPosition (k : Nat) (e : FSMError S I) : FSMError S I
deriving DecidableEq

/-- Embedding of the `FSM[S, I]` struct: validated configuration, current
state, state history, and the derived alphabet / final-state lookup sets
(Go maps used purely as sets, modelled by their key lists). -/
structure FSM (S I : Type) where
  config : FSMConfig S I
  currentState : S
  stateHistory : List S
  alphabetSet : List I
  finalStateSet : List S

variable {S I : Type} [DecidableEq S] [DecidableEq I]

/-- Inner loop of the transition validation: for each `(input, toState)`
entry of one source state's table, checks the input against the alphabet
and the destination against the state set, in the Go code's order. -/
def findInnerTransError (stateSet : List S) (alphabetSet : List I) :
    List (I × S) → Option (FSMError S I)
  | [] => none
  | (input, toState) :: rest =>
    if input ∈ alphabetSet then
      if toState ∈ stateSet then findInnerTransError stateSet alphabetSet rest
      else some (.errInvalidTransitionTo toState)
    else some (.errInvalidInputSym input)

/-- Outer loop of the transition validation: for each source state,
checks that it is declared and then validates its inner table. -/
def findTransitionError (stateSet : List S) (alphabetSet : List I) :
    List (S × List (I × S)) → Option (FSMError S I)
  | [] => none
  | (fromState, transitions) :: rest =>
    if fromState ∈ stateSet then
      match findInnerTransError stateSet alphabetSet transitions with
      | some e => some e
      | none => findTransitionError stateSet alphabetSet rest
    else some (.errInvalidTransitionFrom fromState)

/-- Final-state validation loop: returns the first declared final state
that is not in the state set, if any. -/
def findInvalidFinal (stateSet : List S) : List S → Option S
  | [] => none
  | s :: rest => if s ∈ stateSet then findInvalidFinal stateSet rest else some s

/-- Embedding of `validateAndBuildLookupSets`: validates the configuration
and produces the derived alphabet set and final-state set, or the first
error found, following the Go code's check order. -/
def validateAndBuildLookupSets (config : FSMConfig S I) :
    Except (FSMError S I) (List I × List S) :=
  if config.States.isEmpty then .error .errNoStates
  else if config.Alphabet.isEmpty then .error .errNoAlphabet
  else if config.InitialState ∈ config.States then
    match findInvalidFinal config.States config.FinalStates with
    | some s => .error (.errInvalidFinal s)
    | none =>
      match findTransitionError config.States config.Alphabet config.Transitions with
      | some e => .error e
      | none => .ok (config.Alphabet, config.FinalStates)
  else .error .errInvalidInitial

/-- Embedding of `NewFSM`: validates the configuration and on success
returns an engine whose current state is the initial state and whose
history is the single-element list holding the initial state. -/
def NewFSM (config : FSMConfig S I) : Except (FSMError S I) (FSM S I) :=
  match validateAndBuildLookupSets config with
  | .error e => .error e
  | .ok (alphabetSet, finalStateSet) =>
    .ok { config := config
          currentState := config.InitialState
          stateHistory := [config.InitialState]
          alphabetSet := alphabetSet
          finalStateSet := finalStateSet }

/-- Embedding of `Reset`: current state back to the initial state, history
truncated to the single-element list holding the initial state. -/
def FSM.Reset (f : FSM S I) : FSM S I :=
  { f with currentState := f.config.InitialState
           stateHistory := [f.config.InitialState] }

/-- Embedding of `CurrentState`. -/
def FSM.CurrentState (f : FSM S I) : S := f.currentState

/-- Embedding of `StateHistory`.  The Go method returns a fresh copy of
the history slice; in the pure embedding the copy is the list itself. -/
def FSM.StateHistory (f : FSM S I) : List S := f.stateHistory

/-- Embedding of `Transition`: looks up the inner table for the current
state, then the entry for the input; on success moves to the destination
and appends it to the history, on failure returns the receiver unchanged
together with the `ErrNoTransition`-based error. -/
def FSM.Transition (f : FSM S I) (input : I) : FSM S I × Option (FSMError S I) :=
  match lookupA f.currentState f.config.Transitions with
  | none => (f, some (.errNoTransitionForState f.currentState))
  | some stateTransitions =>
    match lookupA input stateTransitions with
    | none => (f, some (.errNoTransitionFromWith f.currentState input))
    | some nextState =>
      ({ f with currentState := nextState
                stateHistory := f.stateHistory ++ [nextState] }, none)

/-- Embedding of the loop body of `Process`: applies `Transition` to each
input in order, starting the position counter at `pos`; at the first
failure wraps the transition error with the zero-based position and stops,
returning the engine exactly as mutated so far. -/
def FSM.ProcessFrom (f : FSM S I) (pos : Nat) : List I → FSM S I × Option (FSMError S I)
  | [] => (f, none)
  | input :: rest =>
    match f.Transition input with
    | (f2, some e) => (f2, some (.errAtPosition pos e))
    | (f2, none) => f2.ProcessFrom (pos + 1) rest

/-- Embedding of `Process`: applies the inputs in order from position 0,
without resetting first. -/
def FSM.Process (f : FSM S I) (inputs : List I) : FSM S I × Option (FSMError S I) :=
  f.ProcessFrom 0 inputs

/-- Embedding of `Execute`: resets, then processes the inputs. -/
def FSM.Execute (f : FSM S I) (inputs : List I) : FSM S I × Option (FSMError S I) :=
  f.Reset.Process inputs

/-- Embedding of `IsInFinalState`: false when the final-state set is
empty, otherwise membership of the current state in the final-state set. -/
def FSM.IsInFinalState (f : FSM S I) : Bool :=
  if f.finalStateSet.isEmpty then false
  else decide (f.currentState ∈ f.finalStateSet)

/-- Embedding of `ValidateInput`: membership of the input in the derived
alphabet set. -/
def FSM.ValidateInput (f : FSM S I) (input : I) : Bool :=
  decide (input ∈ f.alphabetSet)

/-- Pure transition function derived from the nested transition table:
`delta cfg s i` is the destination of the `(s, i)` entry when both lookups
succeed, `none` when either fails.  This is exactly the double lookup
`Transition` performs. -/
def FSMConfig.delta (cfg : FSMConfig S I) (s : S) (i : I) : Option S :=
  match lookupA s cfg.Transitions with
  | none => none
  | some tbl => lookupA i tbl

/-- The error `Transition` reports from state `s` on input `i` when
`delta cfg s i = none`: the state-only error when no inner table exists
for `s`, the state-and-input error otherwise. -/
def transErrOf (cfg : FSMConfig S I) (s : S) (i : I) : FSMError S I :=
  match lookupA s cfg.Transitions with
  | none => .errNoTransitionForState s
  | some _ => .errNoTransitionFromWith s i

/-- States visited by a run of `delta` from `s` over the inputs, when
every step has a defined transition; `none` as soon as one step has no
entry. -/
def pathOf (cfg : FSMConfig S I) (s : S) : List I → Option (List S)
  | [] => some []
  | x :: rest =>
    (cfg.delta s x).bind fun t => (pathOf cfg t rest).map fun l => t :: l

/-! ## The binary modulo-3 example wrapper (`examples/modthree/modthree.go`)

States are the `ModState` integers 0, 1, 2 (modelled as `Nat`); input
symbols are the `BinarySymbol` runes `'0'` and `'1'` (modelled as `Char`).
Go strings are modelled as `List Char`; for the strings this wrapper
accepts every character before the first invalid one is single-byte ASCII,
so Go's byte positions coincide with character positions. -/

/-- The hardcoded configuration `NewModThreeGeneric` builds: states
{0, 1, 2}, alphabet {'0', '1'}, initial state 0, all states final, and
the transition table of `delta(s, b) = (2 * s + b) mod 3`. -/
def modThreeConfig : FSMConfig Nat Char :=
  { States := [0, 1, 2]
    Alphabet := ['0', '1']
    InitialState := 0
    FinalStates := [0, 1, 2]
    Transitions :=
      [ (0, [('0', 0), ('1', 1)])
      , (1, [('0', 2), ('1', 0)])
      , (2, [('0', 1), ('1', 2)]) ] }

/-- The engine `NewModThreeGeneric` wraps: the successful result of
`NewFSM modThreeConfig` (the constructor panics on error, which for this
hardcoded configuration never happens). -/
def modThreeFSM : FSM Nat Char :=
  match NewFSM modThreeConfig with
  | .ok f => f
  | .error _ =>
    { config := modThreeConfig
      currentState := 0
      stateHistory := [0]
      alphabetSet := []
      finalStateSet := [] }

/-- Embedding of the error `ParseInput` returns: an invalid binary
character together with its zero-based position. -/
inductive ParseError where
  | invalidChar (c : Char) (pos : Nat) : ParseError
deriving DecidableEq

/-- Loop of `ParseInput`: converts each character to a symbol, rejecting
the first one that fails `ValidateInput`, with positions counted from
`pos`. -/
def parseLoop (m : FSM Nat Char) (pos : Nat) :
    List Char → Except ParseError (List Char)
  | [] => .ok []
  | c :: rest =>
    if m.ValidateInput c then
      match parseLoop m (pos + 1) rest with
      | .ok symbols => .ok (c :: symbols)
      | .error e => .error e
    else .error (.invalidChar c pos)

/-- Embedding of `ParseInput`: the strings `""` and `"0"` short-circuit to
a `nil` symbol slice with no error (modelled as `ok none`); any other
string is converted character by character, failing at the first character
outside the alphabet. -/
def ParseInput (m : FSM Nat Char) (binaryStr : List Char) :
    Except ParseError (Option (List Char)) :=
  if binaryStr = [] ∨ binaryStr = ['0'] then .ok none
  else (parseLoop m 0 binaryStr).map some

/-- Embedding of `ComputeModThree`: parses the string, returning
`(0, false)` on a parse error and `(0, true)` for the `nil` short-circuit;
otherwise runs `Execute` on the wrapped engine, returning `(0, false)` on
an execution error and `(currentState, true)` on success.  The second
component is the wrapped engine after the call (the Go method mutates
`m.fsm` in place). -/
def ComputeModThree (m : FSM Nat Char) (binaryStr : List Char) :
    (Nat × Bool) × FSM Nat Char :=
  match ParseInput m binaryStr with
  | .error _ => ((0, false), m)
  | .ok none => ((0, true), m)
  | .ok (some inputs) =>
    match m.Execute inputs with
    | (m2, some _) => ((0, false), m2)
    | (m2, none) => ((m2.CurrentState, true), m2)

/-- Embedding of `IsDivisibleByThree`: true iff `ComputeModThree`
succeeded with remainder 0.  The second component is the wrapped engine
after the call. -/
def IsDivisibleByThree (m : FSM Nat Char) (binaryStr : List Char) :
    Bool × FSM Nat Char :=
  match ComputeModThree m binaryStr with
  | ((remainder, ok), m2) => (ok && remainder == 0, m2)

/-! ## Spec-side definitions used in theorem statements -/

/-- Spec-side transcription of the seven invalid-configuration conditions
of the specification, in its order. -/
def BadConfig (cfg : FSMConfig S I) : Prop :=
  cfg.States = [] ∨ cfg.Alphabet = [] ∨ cfg.InitialState ∉ cfg.States ∨
  (∃ s ∈ cfg.FinalStates, s ∉ cfg.States) ∨
  (∃ p ∈ cfg.Transitions, p.1 ∉ cfg.States) ∨
  (∃ p ∈ cfg.Transitions, ∃ q ∈ p.2, q.1 ∉ cfg.Alphabet) ∨
  (∃ p ∈ cfg.Transitions, ∃ q ∈ p.2, q.2 ∉ cfg.States)

/-- Negation-free version of `BadConfig`: the conjunction of the
referential-integrity conditions a valid configuration satisfies. -/
def GoodConfig (cfg : FSMConfig S I) : Prop :=
  cfg.States ≠ [] ∧ cfg.Alphabet ≠ [] ∧ cfg.InitialState ∈ cfg.States ∧
  (∀ s ∈ cfg.FinalStates, s ∈ cfg.States) ∧
  (∀ p ∈ cfg.Transitions, p.1 ∈ cfg.States ∧
    ∀ q ∈ p.2, q.1 ∈ cfg.Alphabet ∧ q.2 ∈ cfg.States)

/-- Spec-side statement that a construction error names exactly the
configuration defect it reports: each defect category has its own error
kind, and the payload points at an actual offender. -/
def ErrorMatches (cfg : FSMConfig S I) : FSMError S I → Prop
  | .errNoStates => cfg.States = []
  | .errNoAlphabet => cfg.Alphabet = []
  | .errInvalidInitial => cfg.InitialState ∉ cfg.States
  | .errInvalidFinal s => s ∈ cfg.FinalStates ∧ s ∉ cfg.States
  | .errInvalidTransitionFrom s =>
      (∃ p ∈ cfg.Transitions, p.1 = s) ∧ s ∉ cfg.States
  | .errInvalidInputSym i =>
      (∃ p ∈ cfg.Transitions, ∃ q ∈ p.2, q.1 = i) ∧ i ∉ cfg.Alphabet
  | .errInvalidTransitionTo t =>
      (∃ p ∈ cfg.Transitions, ∃ q ∈ p.2, q.2 = t) ∧ t ∉ cfg.States
  | _ => False

/-- Modelled from the spec's words for the `Execute` equivalence claim:
a call to `Reset()` followed by a call to `Process(symbols)`. -/
def ResetThenProcess (f : FSM S I) (inputs : List I) : FSM S I × Option (FSMError S I) :=
  (f.Reset).Process inputs

/-- Spec-side run-state invariant: the history is non-empty, starts at
the configured initial state, ends at the current state, and every
element of it is a declared state. -/
def RunInv (f : FSM S I) : Prop :=
  f.stateHistory ≠ [] ∧
  f.stateHistory.head? = some f.config.InitialState ∧
  f.stateHistory.getLast? = some f.currentState ∧
  ∀ s ∈ f.stateHistory, s ∈ f.config.States

/-- Numeric value of one binary character. -/
def bitVal (c : Char) : Nat := if c = '1' then 1 else 0

/-- Value of a character list read as a binary numeral, accumulating onto
`a` (most significant character first). -/
def binValFrom (a : Nat) (l : List Char) : Nat :=
  l.foldl (fun v c => 2 * v + bitVal c) a

/-- Value of a character list read as a binary numeral. -/
def binVal (l : List Char) : Nat := binValFrom 0 l

/-- The run function the claim describes for the modulo-3 automaton:
folding the transition `delta (s, b) = (2 * s + b) mod 3` over the input
from state `a`. -/
def specRun (a : Nat) (l : List Char) : Nat :=
  l.foldl (fun st c => (2 * st + bitVal c) % 3) a

/-! ## General lemmas about the engine -/

theorem lookupA_mem {α β : Type} [DecidableEq α] {k : α} {b : β} :
    ∀ {l : List (α × β)}, lookupA k l = some b → (k, b) ∈ l := by
  intro l
  induction l with
  | nil => intro h; simp [lookupA] at h
  | cons p rest ih =>
    intro h
    obtain ⟨a, b0⟩ := p
    by_cases hak : a = k
    · subst hak
      simp [lookupA] at h
      simp [h]
    · simp [lookupA, hak] at h
      exact List.mem_cons_of_mem _ (ih h)

/-- `Transition` expressed through the derived pure transition function:
failure exactly when `delta` is undefined, with the matching error and the
receiver unchanged, success moving to the destination and appending it. -/
theorem Transition_delta (f : FSM S I) (x : I) :
    f.Transition x =
      match f.config.delta f.currentState x with
      | none => (f, some (transErrOf f.config f.currentState x))
      | some t =>
        ({ f with currentState := t, stateHistory := f.stateHistory ++ [t] }, none) := by
  unfold FSM.Transition FSMConfig.delta transErrOf
  cases h : lookupA f.currentState f.config.Transitions with
  | none => simp
  | some tbl =>
    cases h2 : lookupA x tbl with
    | none => simp
    | some t => simp

theorem Transition_frame (f : FSM S I) (x : I) :
    (f.Transition x).1.config = f.config ∧
    (f.Transition x).1.alphabetSet = f.alphabetSet ∧
    (f.Transition x).1.finalStateSet = f.finalStateSet := by
  rw [Transition_delta]
  cases f.config.delta f.currentState x <;> simp

theorem ProcessFrom_frame (l : List I) :
    ∀ (f : FSM S I) (pos : Nat),
      (f.ProcessFrom pos l).1.config = f.config ∧
      (f.ProcessFrom pos l).1.alphabetSet = f.alphabetSet ∧
      (f.ProcessFrom pos l).1.finalStateSet = f.finalStateSet := by
  induction l with
  | nil => intro f pos; simp [FSM.ProcessFrom]
  | cons x rest ih =>
    intro f pos
    unfold FSM.ProcessFrom
    cases h : f.Transition x with
    | mk f2 e =>
      have hframe := Transition_frame f x
      rw [h] at hframe
      cases e with
      | none =>
        simp only []
        have := ih f2 (pos + 1)
        exact ⟨this.1.trans hframe.1, this.2.1.trans hframe.2.1,
               this.2.2.trans hframe.2.2⟩
      | some err => simpa using hframe

theorem pathOf_length {cfg : FSMConfig S I} :
    ∀ {l : List I} {s : S} {sts : List S},
      pathOf cfg s l = some sts → sts.length = l.length := by
  intro l
  induction l with
  | nil => intro s sts h; simp [pathOf] at h; simp [← h]
  | cons x rest ih =>
    intro s sts h
    simp only [pathOf, Option.bind_eq_some, Option.map_eq_some'] at h
    obtain ⟨t, hd, sts0, hp, hsts⟩ := h
    subst hsts
    simp [ih hp]

/-- Success characterization of the `Process` loop: when `pathOf` assigns
a full list of visited states, the loop succeeds, ends in the last visited
state (the current state when the input list is empty) and appends every
visited state to the history, for any starting position counter. -/
theorem ProcessFrom_ok (l : List I) :
    ∀ (f : FSM S I) (pos : Nat) (sts : List S),
      pathOf f.config f.currentState l = some sts →
      f.ProcessFrom pos l =
        ({ f with currentState := sts.getLastD f.currentState,
                  stateHistory := f.stateHistory ++ sts }, none) := by
  induction l with
  | nil =>
    intro f pos sts h
    simp [pathOf] at h
    subst h
    simp [FSM.ProcessFrom]
  | cons x rest ih =>
    intro f pos sts h
    simp only [pathOf, Option.bind_eq_some, Option.map_eq_some'] at h
    obtain ⟨t, hd, sts0, hp, hsts⟩ := h
    subst hsts
    unfold FSM.ProcessFrom
    rw [Transition_delta, hd]
    simp only []
    have ihres := ih { f with currentState := t,
                              stateHistory := f.stateHistory ++ [t] } (pos + 1) sts0 hp
    rw [ihres]
    have hlast : (t :: sts0).getLast?.getD f.currentState = sts0.getLast?.getD t := by
      rw [← List.getLastD_eq_getLast?, ← List.getLastD_eq_getLast?, List.getLastD_cons]
    simp [hlast]

/-- Failure characterization of the `Process` loop: when `pathOf` runs
fine on the first `k` inputs and `delta` is undefined on the `k`-th, the
loop stops there, keeps exactly the `k` applied transitions in current
state and history, and reports position `pos + k` wrapping the transition
error. -/
theorem ProcessFrom_err (l : List I) :
    ∀ (f : FSM S I) (pos k : Nat) (sts : List S) (hk : k < l.length),
      pathOf f.config f.currentState (l.take k) = some sts →
      f.config.delta (sts.getLastD f.currentState) (l.get ⟨k, hk⟩) = none →
      f.ProcessFrom pos l =
        ({ f with currentState := sts.getLastD f.currentState,
                  stateHistory := f.stateHistory ++ sts },
         some (.errAtPosition (pos + k)
           (transErrOf f.config (sts.getLastD f.currentState) (l.get ⟨k, hk⟩)))) := by
  induction l with
  | nil => intro f pos k sts hk; simp at hk
  | cons x rest ih =>
    intro f pos k sts hk hpath hdel
    cases k with
    | zero =>
      simp [pathOf] at hpath
      subst hpath
      simp only [List.getLastD_nil] at hdel ⊢
      unfold FSM.ProcessFrom
      rw [Transition_delta]
      simp only [List.get] at hdel ⊢
      rw [hdel]
      simp
    | succ k0 =>
      rw [List.take_succ_cons] at hpath
      simp only [pathOf, Option.bind_eq_some, Option.map_eq_some'] at hpath
      obtain ⟨t, hd, sts0, hp, hsts⟩ := hpath
      subst hsts
      simp only [List.getLastD_cons] at hdel ⊢
      unfold FSM.ProcessFrom
      rw [Transition_delta, hd]
      simp only []
      have hk0 : k0 < rest.length := by simpa using hk
      have ihres := ih { f with currentState := t,
                                stateHistory := f.stateHistory ++ [t] }
        (pos + 1) k0 sts0 hk0 hp
      simp only [] at ihres
      have hget : (x :: rest).get ⟨k0 + 1, hk⟩ = rest.get ⟨k0, hk0⟩ := rfl
      rw [hget] at hdel ⊢
      rw [ihres hdel]
      have hpos : pos + 1 + k0 = pos + (k0 + 1) := by omega
      simp [hpos]

/-- When no full path exists there is a first failing position: a prefix
with a full path followed by an input on which `delta` is undefined. -/
theorem pathOf_none_first {cfg : FSMConfig S I} :
    ∀ {l : List I} {s : S}, pathOf cfg s l = none →
      ∃ k, ∃ (hk : k < l.length), ∃ sts,
        pathOf cfg s (l.take k) = some sts ∧
        cfg.delta (sts.getLastD s) (l.get ⟨k, hk⟩) = none := by
  intro l
  induction l with
  | nil => intro s h; simp [pathOf] at h
  | cons x rest ih =>
    intro s h
    simp only [pathOf, Option.bind_eq_none] at h
    cases hd : cfg.delta s x with
    | none =>
      refine ⟨0, by simp, [], by simp [pathOf], ?_⟩
      simpa [List.getLastD_nil] using hd
    | some t =>
      have hp : pathOf cfg t rest = none := by
        cases hp0 : pathOf cfg t rest with
        | none => rfl
        | some sts0 =>
          exact absurd (h t hd) (by simp [hp0])
      obtain ⟨k, hk, sts, hpath, hdel⟩ := ih hp
      refine ⟨k + 1, by simpa using hk, t :: sts, ?_, ?_⟩
      · rw [List.take_succ_cons]
        simp [pathOf, hd, hpath]
      · rw [List.getLastD_cons]
        exact hdel

/-! ## Lemmas about configuration validation -/

theorem findInvalidFinal_none_iff (ss : List S) :
    ∀ l : List S, findInvalidFinal ss l = none ↔ ∀ s ∈ l, s ∈ ss := by
  intro l
  induction l with
  | nil => simp [findInvalidFinal]
  | cons s rest ih =>
    by_cases hs : s ∈ ss
    · simp [findInvalidFinal, hs, ih]
    · simp [findInvalidFinal, hs]

theorem findInvalidFinal_some (ss : List S) :
    ∀ (l : List S) (s : S), findInvalidFinal ss l = some s → s ∈ l ∧ s ∉ ss := by
  intro l
  induction l with
  | nil => intro s h; simp [findInvalidFinal] at h
  | cons a rest ih =>
    intro s h
    by_cases ha : a ∈ ss
    · simp [findInvalidFinal, ha] at h
      have := ih s h
      exact ⟨List.mem_cons_of_mem _ this.1, this.2⟩
    · simp [findInvalidFinal, ha] at h
      subst h
      exact ⟨List.mem_cons_self _ _, ha⟩

theorem findInnerTransError_none_iff (ss : List S) (as : List I) :
    ∀ l : List (I × S), findInnerTransError ss as l = none ↔
      ∀ q ∈ l, q.1 ∈ as ∧ q.2 ∈ ss := by
  intro l
  induction l with
  | nil => simp [findInnerTransError]
  | cons q rest ih =>
    obtain ⟨i, t⟩ := q
    by_cases hi : i ∈ as
    · by_cases ht : t ∈ ss
      · simp [findInnerTransError, hi, ht, ih]
      · simp [findInnerTransError, hi, ht]
    · simp [findInnerTransError, hi]

theorem findInnerTransError_some (ss : List S) (as : List I) :
    ∀ (l : List (I × S)) (e : FSMError S I), findInnerTransError ss as l = some e →
      (∃ i t, (i, t) ∈ l ∧
        ((e = .errInvalidInputSym i ∧ i ∉ as) ∨
         (e = .errInvalidTransitionTo t ∧ t ∉ ss))) := by
  intro l
  induction l with
  | nil => intro e h; simp [findInnerTransError] at h
  | cons q rest ih =>
    intro e h
    obtain ⟨i, t⟩ := q
    by_cases hi : i ∈ as
    · by_cases ht : t ∈ ss
      · simp [findInnerTransError, hi, ht] at h
        obtain ⟨i0, t0, hmem, hcase⟩ := ih e h
        exact ⟨i0, t0, List.mem_cons_of_mem _ hmem, hcase⟩
      · simp [findInnerTransError, hi, ht] at h
        exact ⟨i, t, List.mem_cons_self _ _, Or.inr ⟨h.symm, ht⟩⟩
    · simp [findInnerTransError, hi] at h
      exact ⟨i, t, List.mem_cons_self _ _, Or.inl ⟨h.symm, hi⟩⟩

theorem findTransitionError_none_iff (ss : List S) (as : List I) :
    ∀ l : List (S × List (I × S)), findTransitionError ss as l = none ↔
      ∀ p ∈ l, p.1 ∈ ss ∧ ∀ q ∈ p.2, q.1 ∈ as ∧ q.2 ∈ ss := by
  intro l
  induction l with
  | nil => simp [findTransitionError]
  | cons p rest ih =>
    obtain ⟨fromState, transitions⟩ := p
    by_cases hf : fromState ∈ ss
    · cases hin : findInnerTransError ss as transitions with
      | none =>
        have hq := (findInnerTransError_none_iff ss as transitions).mp hin
        have hstep : findTransitionError ss as ((fromState, transitions) :: rest)
            = findTransitionError ss as rest := by
          simp [findTransitionError, hf, hin]
        rw [hstep, ih]
        constructor
        · intro hall p hp
          rcases List.mem_cons.mp hp with heq | hp0
          · rw [heq]; exact ⟨hf, hq⟩
          · exact hall p hp0
        · intro hall p hp
          exact hall p (List.mem_cons_of_mem _ hp)
      | some e =>
        have hbad : ¬ ∀ q ∈ transitions, q.1 ∈ as ∧ q.2 ∈ ss := by
          intro hall
          rw [(findInnerTransError_none_iff ss as transitions).mpr hall] at hin
          exact Option.noConfusion hin
        have hne : findTransitionError ss as ((fromState, transitions) :: rest) = some e := by
          simp [findTransitionError, hf, hin]
        rw [hne]
        constructor
        · intro h; exact Option.noConfusion h
        · intro hall
          exact (hbad ((hall (fromState, transitions) (List.mem_cons_self _ _)).2)).elim
    · simp [findTransitionError, hf]

theorem findTransitionError_some (ss : List S) (as : List I) :
    ∀ (l : List (S × List (I × S))) (e : FSMError S I),
      findTransitionError ss as l = some e →
      (∃ p ∈ l,
        (e = .errInvalidTransitionFrom p.1 ∧ p.1 ∉ ss) ∨
        (∃ i t, (i, t) ∈ p.2 ∧
          ((e = .errInvalidInputSym i ∧ i ∉ as) ∨
           (e = .errInvalidTransitionTo t ∧ t ∉ ss)))) := by
  intro l
  induction l with
  | nil => intro e h; simp [findTransitionError] at h
  | cons p rest ih =>
    intro e h
    obtain ⟨fromState, transitions⟩ := p
    by_cases hf : fromState ∈ ss
    · cases hin : findInnerTransError ss as transitions with
      | none =>
        simp [findTransitionError, hf, hin] at h
        obtain ⟨p0, hmem, hcase⟩ := ih e h
        exact ⟨p0, List.mem_cons_of_mem _ hmem, hcase⟩
      | some e0 =>
        simp [findTransitionError, hf, hin] at h
        subst h
        obtain ⟨i, t, hmem, hcase⟩ := findInnerTransError_some ss as transitions e0 hin
        exact ⟨(fromState, transitions), List.mem_cons_self _ _,
               Or.inr ⟨i, t, hmem, hcase⟩⟩
    · simp [findTransitionError, hf] at h
      exact ⟨(fromState, transitions), List.mem_cons_self _ _, Or.inl ⟨h.symm, hf⟩⟩

theorem good_iff_not_bad (cfg : FSMConfig S I) : GoodConfig cfg ↔ ¬ BadConfig cfg := by
  constructor
  · rintro ⟨h1, h2, h3, h4, h5⟩ hbad
    rcases hbad with h | h | h | ⟨s, hs, hns⟩ | ⟨p, hp, hnp⟩ |
      ⟨p, hp, q, hq, hnq⟩ | ⟨p, hp, q, hq, hnq⟩
    · exact h1 h
    · exact h2 h
    · exact h h3
    · exact hns (h4 s hs)
    · exact hnp ((h5 p hp).1)
    · exact hnq (((h5 p hp).2 q hq).1)
    · exact hnq (((h5 p hp).2 q hq).2)
  · intro hnb
    refine ⟨?_, ?_, ?_, ?_, ?_⟩
    · intro h; exact hnb (Or.inl h)
    · intro h; exact hnb (Or.inr (Or.inl h))
    · by_contra hc; exact hnb (Or.inr (Or.inr (Or.inl hc)))
    · intro s hs; by_contra hc
      exact hnb (Or.inr (Or.inr (Or.inr (Or.inl ⟨s, hs, hc⟩))))
    · intro p hp
      constructor
      · by_contra hc
        exact hnb (Or.inr (Or.inr (Or.inr (Or.inr (Or.inl ⟨p, hp, hc⟩)))))
      · intro q hq
        constructor
        · by_contra hc
          exact hnb (Or.inr (Or.inr (Or.inr (Or.inr (Or.inr (Or.inl ⟨p, hp, q, hq, hc⟩))))))
        · by_contra hc
          exact hnb (Or.inr (Or.inr (Or.inr (Or.inr (Or.inr (Or.inr ⟨p, hp, q, hq, hc⟩))))))

theorem validate_ok_of_good {cfg : FSMConfig S I} (hg : GoodConfig cfg) :
    validateAndBuildLookupSets cfg = .ok (cfg.Alphabet, cfg.FinalStates) := by
  obtain ⟨h1, h2, h3, h4, h5⟩ := hg
  unfold validateAndBuildLookupSets
  rw [if_neg (by simpa [List.isEmpty_iff] using h1),
      if_neg (by simpa [List.isEmpty_iff] using h2), if_pos h3,
      (findInvalidFinal_none_iff cfg.States cfg.FinalStates).mpr h4,
      (findTransitionError_none_iff cfg.States cfg.Alphabet cfg.Transitions).mpr h5]

theorem good_of_validate_ok {cfg : FSMConfig S I} {r : List I × List S}
    (h : validateAndBuildLookupSets cfg = .ok r) : GoodConfig cfg := by
  unfold validateAndBuildLookupSets at h
  by_cases h1 : cfg.States.isEmpty
  · rw [if_pos h1] at h; exact absurd h (by simp)
  · rw [if_neg h1] at h
    by_cases h2 : cfg.Alphabet.isEmpty
    · rw [if_pos h2] at h; exact absurd h (by simp)
    · rw [if_neg h2] at h
      by_cases h3 : cfg.InitialState ∈ cfg.States
      · rw [if_pos h3] at h
        cases hfin : findInvalidFinal cfg.States cfg.FinalStates with
        | some s => rw [hfin] at h; exact absurd h (by simp)
        | none =>
          rw [hfin] at h
          cases htr : findTransitionError cfg.States cfg.Alphabet cfg.Transitions with
          | some e => rw [htr] at h; exact absurd h (by simp)
          | none =>
            refine ⟨by simpa [List.isEmpty_iff] using h1,
                    by simpa [List.isEmpty_iff] using h2, h3,
                    (findInvalidFinal_none_iff cfg.States cfg.FinalStates).mp hfin,
                    (findTransitionError_none_iff cfg.States cfg.Alphabet
                      cfg.Transitions).mp htr⟩
      · rw [if_neg h3] at h; exact absurd h (by simp)

theorem validate_error_matches {cfg : FSMConfig S I} {e : FSMError S I}
    (h : validateAndBuildLookupSets cfg = .error e) : ErrorMatches cfg e := by
  unfold validateAndBuildLookupSets at h
  by_cases h1 : cfg.States.isEmpty
  · rw [if_pos h1] at h
    simp at h
    rw [← h]
    simpa [ErrorMatches, List.isEmpty_iff] using h1
  · rw [if_neg h1] at h
    by_cases h2 : cfg.Alphabet.isEmpty
    · rw [if_pos h2] at h
      simp at h
      rw [← h]
      simpa [ErrorMatches, List.isEmpty_iff] using h2
    · rw [if_neg h2] at h
      by_cases h3 : cfg.InitialState ∈ cfg.States
      · rw [if_pos h3] at h
        cases hfin : findInvalidFinal cfg.States cfg.FinalStates with
        | some s =>
          rw [hfin] at h
          simp at h
          rw [← h]
          exact findInvalidFinal_some cfg.States cfg.FinalStates s hfin
        | none =>
          rw [hfin] at h
          cases htr : findTransitionError cfg.States cfg.Alphabet cfg.Transitions with
          | some e0 =>
            rw [htr] at h
            simp at h
            rw [← h]
            obtain ⟨p, hp, hcase⟩ :=
              findTransitionError_some cfg.States cfg.Alphabet cfg.Transitions e0 htr
            rcases hcase with ⟨he, hns⟩ | ⟨i, t, hq, ⟨he, hni⟩ | ⟨he, hnt⟩⟩
            · rw [he]; exact ⟨⟨p, hp, rfl⟩, hns⟩
            · rw [he]; exact ⟨⟨p, hp, (i, t), hq, rfl⟩, hni⟩
            · rw [he]; exact ⟨⟨p, hp, (i, t), hq, rfl⟩, hnt⟩
          | none => rw [htr] at h; exact absurd h (by simp)
      · rw [if_neg h3] at h
        simp at h
        rw [← h]
        exact h3

/-! ## Lemmas about the modulo-3 wrapper -/

theorem modThree_delta (s : Nat) (hs : s < 3) (c : Char) (hc : c = '0' ∨ c = '1') :
    modThreeConfig.delta s c = some ((2 * s + bitVal c) % 3) := by
  interval_cases s <;> rcases hc with rfl | rfl <;> decide

theorem modThree_pathOf (l : List Char) :
    (∀ c ∈ l, c = '0' ∨ c = '1') → ∀ a : Nat, a < 3 →
      ∃ sts, pathOf modThreeConfig a l = some sts ∧
        sts.getLastD a = specRun a l ∧ specRun a l < 3 := by
  induction l with
  | nil =>
    intro _ a ha
    exact ⟨[], rfl, rfl, ha⟩
  | cons c rest ih =>
    intro hbin a ha
    have hc : c = '0' ∨ c = '1' := hbin c (List.mem_cons_self _ _)
    have hd := modThree_delta a ha c hc
    have ht : (2 * a + bitVal c) % 3 < 3 := Nat.mod_lt _ (by omega)
    obtain ⟨sts0, hp, hlast, hlt⟩ :=
      ih (fun x hx => hbin x (List.mem_cons_of_mem _ hx)) ((2 * a + bitVal c) % 3) ht
    refine ⟨(2 * a + bitVal c) % 3 :: sts0, ?_, ?_, ?_⟩
    · simp [pathOf, hd, hp]
    · rw [List.getLastD_cons]
      exact hlast
    · exact hlt

theorem specRun_mod (l : List Char) :
    ∀ a : Nat, specRun (a % 3) l = binValFrom a l % 3 := by
  induction l with
  | nil => intro a; rfl
  | cons c rest ih =>
    intro a
    have hstep : (2 * (a % 3) + bitVal c) % 3 = (2 * a + bitVal c) % 3 := by omega
    show specRun ((2 * (a % 3) + bitVal c) % 3) rest = binValFrom (2 * a + bitVal c) rest % 3
    rw [hstep]
    have := ih (2 * a + bitVal c)
    rw [← this]

theorem parseLoop_ok (l : List Char) :
    ∀ (m : FSM Nat Char) (pos : Nat), m.alphabetSet = ['0', '1'] →
      (∀ c ∈ l, c = '0' ∨ c = '1') → parseLoop m pos l = .ok l := by
  induction l with
  | nil => intro m pos _ _; rfl
  | cons c rest ih =>
    intro m pos halpha hbin
    have hc : c = '0' ∨ c = '1' := hbin c (List.mem_cons_self _ _)
    have hv : m.ValidateInput c = true := by
      unfold FSM.ValidateInput
      rw [halpha]
      rcases hc with rfl | rfl <;> decide
    unfold parseLoop
    rw [if_pos hv, ih m (pos + 1) halpha (fun x hx => hbin x (List.mem_cons_of_mem _ hx))]

/-- Failure of the parse loop at the first character outside the
alphabet, reporting that character and its absolute position. -/
theorem parseLoop_err (l : List Char) :
    ∀ (m : FSM Nat Char) (pos k : Nat) (hk : k < l.length),
      m.alphabetSet = ['0', '1'] →
      ¬(l.get ⟨k, hk⟩ = '0' ∨ l.get ⟨k, hk⟩ = '1') →
      (∀ j (hj : j < k), l.get ⟨j, hj.trans hk⟩ = '0' ∨ l.get ⟨j, hj.trans hk⟩ = '1') →
      parseLoop m pos l = .error (.invalidChar (l.get ⟨k, hk⟩) (pos + k)) := by
  induction l with
  | nil => intro m pos k hk; exact absurd hk (by simp)
  | cons c rest ih =>
    intro m pos k hk halpha hbad hgood
    cases k with
    | zero =>
      have hc : ¬(c = '0' ∨ c = '1') := hbad
      have hv : m.ValidateInput c = false := by
        unfold FSM.ValidateInput
        rw [halpha]
        simp only [decide_eq_false_iff_not]
        intro hmem
        rcases List.mem_pair.mp hmem with rfl | rfl
        · exact hc (Or.inl rfl)
        · exact hc (Or.inr rfl)
      unfold parseLoop
      rw [if_neg (by simp [hv])]
      rfl
    | succ k0 =>
      have hc : c = '0' ∨ c = '1' := by
        have := hgood 0 (Nat.succ_pos k0)
        exact this
      have hv : m.ValidateInput c = true := by
        unfold FSM.ValidateInput
        rw [halpha]
        rcases hc with rfl | rfl <;> decide
      have hk0 : k0 < rest.length := by simpa using hk
      have hbad0 : ¬(rest.get ⟨k0, hk0⟩ = '0' ∨ rest.get ⟨k0, hk0⟩ = '1') := hbad
      have hgood0 : ∀ j (hj : j < k0),
          rest.get ⟨j, hj.trans hk0⟩ = '0' ∨ rest.get ⟨j, hj.trans hk0⟩ = '1' := by
        intro j hj
        exact hgood (j + 1) (Nat.succ_lt_succ hj)
      have ihres := ih m (pos + 1) k0 hk0 halpha hbad0 hgood0
      unfold parseLoop
      rw [if_pos hv, ihres]
      have hpos : pos + 1 + k0 = pos + (k0 + 1) := by omega
      rw [hpos]
      rfl

/-- Existence of a first position violating a property, given some
position violating it. -/
theorem exists_first_violation (P : Char → Prop) (l : List Char)
    (h : ∃ c ∈ l, ¬ P c) :
    ∃ k, ∃ (hk : k < l.length), ¬ P (l.get ⟨k, hk⟩) ∧
      ∀ j (hj : j < k), P (l.get ⟨j, hj.trans hk⟩) := by
  induction l with
  | nil => simp at h
  | cons c rest ih =>
    by_cases hc : P c
    · have hrest : ∃ x ∈ rest, ¬ P x := by
        obtain ⟨x, hx, hnx⟩ := h
        rcases List.mem_cons.mp hx with rfl | hx0
        · exact absurd hc hnx
        · exact ⟨x, hx0, hnx⟩
      obtain ⟨k, hk, hbad, hgood⟩ := ih hrest
      refine ⟨k + 1, Nat.succ_lt_succ hk, hbad, ?_⟩
      intro j hj
      cases j with
      | zero => exact hc
      | succ j0 => exact hgood j0 (Nat.lt_of_succ_lt_succ hj)
    · exact ⟨0, Nat.succ_pos _, hc, fun j hj => absurd hj (Nat.not_lt_zero j)⟩

/-- Successful execution of the modulo-3 engine on an all-binary string:
`Execute` succeeds and ends in the state holding the binary value mod 3. -/
theorem modThree_execute (f : FSM Nat Char) (hcfg : f.config = modThreeConfig)
    (l : List Char) (hbin : ∀ c ∈ l, c = '0' ∨ c = '1') :
    (f.Execute l).2 = none ∧ (f.Execute l).1.currentState = binVal l % 3 := by
  have hr0 : f.Reset.currentState = 0 := by
    show f.config.InitialState = 0
    rw [hcfg]
    rfl
  obtain ⟨sts, hp, hlast, _⟩ := modThree_pathOf l hbin 0 (by omega)
  have hp2 : pathOf f.Reset.config f.Reset.currentState l = some sts := by
    show pathOf f.config f.Reset.currentState l = some sts
    rw [hcfg, hr0]
    exact hp
  have hrun := ProcessFrom_ok l f.Reset 0 sts hp2
  have hspec : specRun 0 l = binVal l % 3 := by
    have := specRun_mod l 0
    simpa [binVal] using this
  constructor
  · show (f.Reset.ProcessFrom 0 l).2 = none
    rw [hrun]
  · show (f.Reset.ProcessFrom 0 l).1.currentState = binVal l % 3
    rw [hrun]
    show sts.getLastD f.Reset.currentState = binVal l % 3
    rw [hr0, hlast, hspec]

omit [DecidableEq S] [DecidableEq I] in
theorem reset_iterate (n : Nat) : ∀ f : FSM S I, FSM.Reset^[n + 1] f = f.Reset := by
  induction n with
  | zero => intro f; rfl
  | succ n ih =>
    intro f
    rw [Function.iterate_succ_apply, ih f.Reset]
    rfl

theorem cons_getLast? {α : Type} (l : List α) :
    ∀ a : α, (a :: l).getLast? = some (l.getLastD a) := by
  induction l with
  | nil => intro a; rfl
  | cons b m ih =>
    intro a
    rw [List.getLast?_cons_cons, ih b, List.getLastD_cons]

/-! ## Claim theorems -/

/-- C1: `NewFSM config` returns an error (and hence no engine) if and
only if one of the seven invalid-configuration conditions holds; every
error returned has the kind naming exactly the violated condition with
an actual offender as payload; and on success the engine's current state
is `InitialState` and its history is `[InitialState]`. -/
theorem claim1_newFSM_validation (cfg : FSMConfig S I) :
    ((∃ e, NewFSM cfg = .error e) ↔ BadConfig cfg) ∧
    (∀ f, NewFSM cfg = .ok f →
      f.currentState = cfg.InitialState ∧ f.stateHistory = [cfg.InitialState]) ∧
    (∀ e, NewFSM cfg = .error e → ErrorMatches cfg e) := by
  have hnew_err : ∀ e : FSMError S I,
      NewFSM cfg = .error e ↔ validateAndBuildLookupSets cfg = .error e := by
    intro e
    unfold NewFSM
    cases hv : validateAndBuildLookupSets cfg with
    | error e0 => simp
    | ok r =>
      obtain ⟨a, b⟩ := r
      simp
  refine ⟨⟨?_, ?_⟩, ?_, ?_⟩
  · rintro ⟨e, he⟩
    rw [hnew_err e] at he
    by_contra hnb
    rw [validate_ok_of_good ((good_iff_not_bad cfg).mpr hnb)] at he
    exact Except.noConfusion he
  · intro hbad
    cases hv : validateAndBuildLookupSets cfg with
    | error e =>
      refine ⟨e, ?_⟩
      unfold NewFSM
      rw [hv]
    | ok r =>
      exact absurd hbad ((good_iff_not_bad cfg).mp (good_of_validate_ok hv))
  · intro f hf
    unfold NewFSM at hf
    cases hv : validateAndBuildLookupSets cfg with
    | error e =>
      rw [hv] at hf
      exact Except.noConfusion hf
    | ok r =>
      obtain ⟨a, b⟩ := r
      rw [hv] at hf
      simp at hf
      rw [← hf]
      exact ⟨rfl, rfl⟩
  · intro e he
    exact validate_error_matches ((hnew_err e).mp he)

/-- Witness for C1: a configuration with an empty state list is rejected
by `NewFSM`. -/
theorem claim1_newFSM_validation_witness :
    ∃ e, NewFSM ({ States := [], Alphabet := [0], InitialState := 0,
                   FinalStates := [], Transitions := [] } : FSMConfig Nat Nat)
      = .error e :=
  (claim1_newFSM_validation
    { States := [], Alphabet := [0], InitialState := 0,
      FinalStates := [], Transitions := [] }).1.mpr (Or.inl rfl)

/-- C3: `Process` applies `Transition` to the symbols strictly in order
without resetting first: the empty sequence is a successful no-op; when a
full transition path exists the run succeeds, ends in the last state of
the path and appends the whole path to the history; when the first
undefined transition is at zero-based position `k`, the run stops there
with an error wrapping position `k` around the underlying transition
error, with exactly the `k` earlier transitions applied and visible in
the history; and the run succeeds exactly when every transition is
defined. -/
theorem claim3_process (f : FSM S I) :
    (f.Process [] = (f, none)) ∧
    (∀ l sts, pathOf f.config f.currentState l = some sts →
      f.Process l = ({ f with currentState := sts.getLastD f.currentState
                              stateHistory := f.stateHistory ++ sts }, none)) ∧
    (∀ l k sts (hk : k < l.length),
      pathOf f.config f.currentState (l.take k) = some sts →
      f.config.delta (sts.getLastD f.currentState) (l.get ⟨k, hk⟩) = none →
      f.Process l =
        ({ f with currentState := sts.getLastD f.currentState
                  stateHistory := f.stateHistory ++ sts },
         some (.errAtPosition k
           (transErrOf f.config (sts.getLastD f.currentState) (l.get ⟨k, hk⟩))))) ∧
    (∀ l, (f.Process l).2 = none ↔ (pathOf f.config f.currentState l).isSome) := by
  refine ⟨rfl, ?_, ?_, ?_⟩
  · intro l sts hp
    exact ProcessFrom_ok l f 0 sts hp
  · intro l k sts hk hp hd
    have hres := ProcessFrom_err l f 0 k sts hk hp hd
    simpa using hres
  · intro l
    cases hp : pathOf f.config f.currentState l with
    | some sts =>
      have hres : f.Process l = _ := ProcessFrom_ok l f 0 sts hp
      rw [hres]
      simp
    | none =>
      obtain ⟨k, hk, sts, hp2, hd⟩ := pathOf_none_first hp
      have hres : f.Process l = _ := ProcessFrom_err l f 0 k sts hk hp2 hd
      rw [hres]
      simp

/-- Witness for C3: on the modulo-3 engine, processing `['1', 'a']` from
the initial state applies the first transition (to state 1) and stops at
position 1, where no transition is defined for `'a'`. -/
theorem claim3_process_witness :
    modThreeFSM.Process ['1', 'a'] =
      ({ modThreeFSM with
           currentState := ([1] : List Nat).getLastD modThreeFSM.currentState
           stateHistory := modThreeFSM.stateHistory ++ [1] },
       some (.errAtPosition 1
         (transErrOf modThreeFSM.config
           (([1] : List Nat).getLastD modThreeFSM.currentState)
           ((['1', 'a'] : List Char).get ⟨1, by decide⟩)))) :=
  (claim3_process modThreeFSM).2.2.1 ['1', 'a'] 1 [1] (by decide) rfl rfl

/-- C5: starting from a freshly reset run state, a successful run over
`n` symbols leaves a history of length `n + 1` whose first element is the
initial state; a run failing at zero-based position `k` leaves a history
of length `k + 1`, and the current state is the state reached by the `k`
transitions already applied (the last element of the history). -/
theorem claim5_history (f : FSM S I) (inputs : List I) :
    ((f.Reset.Process inputs).2 = none →
      (f.Reset.Process inputs).1.StateHistory.length = inputs.length + 1 ∧
      (f.Reset.Process inputs).1.StateHistory.head? = some f.config.InitialState) ∧
    (∀ err, (f.Reset.Process inputs).2 = some err →
      ∃ k e sts, err = .errAtPosition k e ∧
        (f.Reset.Process inputs).1.StateHistory.length = k + 1 ∧
        pathOf f.config f.config.InitialState (inputs.take k) = some sts ∧
        (f.Reset.Process inputs).1.CurrentState = sts.getLastD f.config.InitialState ∧
        (f.Reset.Process inputs).1.StateHistory.getLast? =
          some ((f.Reset.Process inputs).1.CurrentState)) := by
  cases hp : pathOf f.config f.config.InitialState inputs with
  | some sts =>
    have hp2 : pathOf f.Reset.config f.Reset.currentState inputs = some sts := hp
    have hrun : f.Reset.Process inputs = _ := ProcessFrom_ok inputs f.Reset 0 sts hp2
    constructor
    · intro _
      rw [hrun]
      constructor
      · show ([f.config.InitialState] ++ sts).length = inputs.length + 1
        simp [pathOf_length hp]
      · show ([f.config.InitialState] ++ sts).head? = some f.config.InitialState
        simp
    · intro err herr
      rw [hrun] at herr
      exact absurd herr (by simp)
  | none =>
    obtain ⟨k, hk, sts, hp2, hd⟩ := pathOf_none_first hp
    have hp3 : pathOf f.Reset.config f.Reset.currentState (inputs.take k) = some sts := hp2
    have hd3 : f.Reset.config.delta (sts.getLastD f.Reset.currentState)
        (inputs.get ⟨k, hk⟩) = none := hd
    have hrun : f.Reset.Process inputs = _ :=
      ProcessFrom_err inputs f.Reset 0 k sts hk hp3 hd3
    constructor
    · intro hnone
      rw [hrun] at hnone
      exact absurd hnone (by simp)
    · intro err herr
      rw [hrun] at herr
      have herr2 := Option.some.inj herr
      refine ⟨k,
        transErrOf f.config (sts.getLastD f.config.InitialState) (inputs.get ⟨k, hk⟩),
        sts, ?_, ?_, hp2, ?_, ?_⟩
      · rw [← herr2]
        simp
        rfl
      · rw [hrun]
        show ([f.config.InitialState] ++ sts).length = k + 1
        have hlen : sts.length = k := by
          have := pathOf_length hp2
          simp [List.length_take] at this
          omega
        simp [hlen]
      · rw [hrun]
        rfl
      · rw [hrun]
        show ([f.config.InitialState] ++ sts).getLast? = _
        rw [List.singleton_append, cons_getLast? sts f.config.InitialState]
        rfl

/-- Witness for C5: the failing run of the modulo-3 engine on
`['1', 'a']`, which fails at position 1 after one applied transition. -/
theorem claim5_history_witness :
    ∃ k e sts, (FSMError.errAtPosition 1 (.errNoTransitionFromWith 1 'a') :
          FSMError Nat Char) = .errAtPosition k e ∧
      (modThreeFSM.Reset.Process ['1', 'a']).1.StateHistory.length = k + 1 ∧
      pathOf modThreeFSM.config modThreeFSM.config.InitialState
        ((['1', 'a'] : List Char).take k) = some sts ∧
      (modThreeFSM.Reset.Process ['1', 'a']).1.CurrentState =
        sts.getLastD modThreeFSM.config.InitialState ∧
      (modThreeFSM.Reset.Process ['1', 'a']).1.StateHistory.getLast? =
        some ((modThreeFSM.Reset.Process ['1', 'a']).1.CurrentState) :=
  (claim5_history modThreeFSM ['1', 'a']).2
    (.errAtPosition 1 (.errNoTransitionFromWith 1 'a')) rfl

/-- C2: for every engine and every symbol `x`, if the transition table
has no inner table for the current state, `Transition x` fails with the
state-only "no transition defined" error and returns the run state
unchanged; if the inner table has no entry for `x`, it fails with the
state-and-symbol error and returns the run state unchanged; if an entry
mapping `(current state, x)` to `t` exists, it succeeds, sets the current
state to `t` and appends `t` to the history. -/
theorem claim2_transition (f : FSM S I) (x : I) :
    (lookupA f.currentState f.config.Transitions = none →
      f.Transition x = (f, some (.errNoTransitionForState f.currentState))) ∧
    (∀ tbl, lookupA f.currentState f.config.Transitions = some tbl →
      lookupA x tbl = none →
      f.Transition x = (f, some (.errNoTransitionFromWith f.currentState x))) ∧
    (∀ tbl t, lookupA f.currentState f.config.Transitions = some tbl →
      lookupA x tbl = some t →
      f.Transition x =
        ({ f with currentState := t
                  stateHistory := f.stateHistory ++ [t] }, none)) := by
  refine ⟨?_, ?_, ?_⟩
  · intro h
    unfold FSM.Transition
    rw [h]
  · intro tbl h1 h2
    unfold FSM.Transition
    rw [h1]
    simp only []
    rw [h2]
  · intro tbl t h1 h2
    unfold FSM.Transition
    rw [h1]
    simp only []
    rw [h2]

/-- Witness for C2: on the freshly built modulo-3 engine the entry for
`(0, '1')` exists and maps to state 1, so `Transition '1'` succeeds,
moves to state 1 and appends it to the history. -/
theorem claim2_transition_witness :
    modThreeFSM.Transition '1' =
      ({ modThreeFSM with currentState := 1
                          stateHistory := modThreeFSM.stateHistory ++ [1] }, none) :=
  (claim2_transition modThreeFSM '1').2.2 [('0', 0), ('1', 1)] 1 rfl rfl

/-- C4: `Execute symbols` is observably equivalent to `Reset()` followed
by `Process symbols`: the same error result and the same resulting
engine (current state and history included). -/
theorem claim4_execute_refinement (f : FSM S I) (inputs : List I) :
    f.Execute inputs = ResetThenProcess f inputs := rfl

omit [DecidableEq S] [DecidableEq I] in
/-- C6: `Reset` always sets the current state to the initial state and
the history to the single-element sequence holding it, never fails
(total function), and is idempotent: any positive number of consecutive
`Reset` calls yields the same run state. -/
theorem claim6_reset_idempotent (f : FSM S I) :
    f.Reset.currentState = f.config.InitialState ∧
    f.Reset.stateHistory = [f.config.InitialState] ∧
    f.Reset.Reset = f.Reset ∧
    ∀ n : Nat, FSM.Reset^[n + 1] f = f.Reset :=
  ⟨rfl, rfl, rfl, fun n => reset_iterate n f⟩

theorem newFSM_ok_elim {cfg : FSMConfig S I} {f : FSM S I} (h : NewFSM cfg = .ok f) :
    f.config = cfg ∧ f.currentState = cfg.InitialState ∧
    f.stateHistory = [cfg.InitialState] ∧ f.alphabetSet = cfg.Alphabet ∧
    f.finalStateSet = cfg.FinalStates ∧ GoodConfig cfg := by
  unfold NewFSM at h
  cases hv : validateAndBuildLookupSets cfg with
  | error e =>
    rw [hv] at h
    exact Except.noConfusion h
  | ok r =>
    obtain ⟨a, b⟩ := r
    have hg := good_of_validate_ok hv
    have hab : (a, b) = (cfg.Alphabet, cfg.FinalStates) := by
      have h3 := validate_ok_of_good hg
      rw [hv] at h3
      exact Except.ok.inj h3
    rw [hv] at h
    simp at h
    rw [← h]
    exact ⟨rfl, rfl, rfl, congrArg Prod.fst hab, congrArg Prod.snd hab, hg⟩

/-- Preservation of the run-state invariant by one `Transition` call,
assuming every transition destination is a declared state. -/
theorem runInv_transition (f : FSM S I) (x : I)
    (hdest : ∀ p ∈ f.config.Transitions, ∀ q ∈ p.2, q.2 ∈ f.config.States)
    (hi : RunInv f) : RunInv (f.Transition x).1 := by
  obtain ⟨hne, hhead, hlast, hmem⟩ := hi
  rw [Transition_delta]
  cases hd : f.config.delta f.currentState x with
  | none => exact ⟨hne, hhead, hlast, hmem⟩
  | some t =>
    have ht : t ∈ f.config.States := by
      unfold FSMConfig.delta at hd
      cases h1 : lookupA f.currentState f.config.Transitions with
      | none =>
        rw [h1] at hd
        exact Option.noConfusion hd
      | some tbl =>
        rw [h1] at hd
        exact hdest _ (lookupA_mem h1) _ (lookupA_mem hd)
    refine ⟨by simp, ?_, ?_, ?_⟩
    · show (f.stateHistory ++ [t]).head? = some f.config.InitialState
      cases hh : f.stateHistory with
      | nil => exact absurd hh hne
      | cons h0 hs =>
        rw [hh] at hhead
        rw [List.cons_append]
        exact hhead
    · show (f.stateHistory ++ [t]).getLast? = some t
      exact List.getLast?_concat _
    · intro s hs
      rcases List.mem_append.mp hs with h | h
      · exact hmem s h
      · rw [List.mem_singleton.mp h]
        exact ht

/-- Preservation of the run-state invariant by the `Process` loop. -/
theorem runInv_processFrom (l : List I) :
    ∀ (f : FSM S I) (pos : Nat), GoodConfig f.config → RunInv f →
      RunInv (f.ProcessFrom pos l).1 := by
  induction l with
  | nil => intro f pos _ hi; exact hi
  | cons x rest ih =>
    intro f pos hg hi
    unfold FSM.ProcessFrom
    cases ht : f.Transition x with
    | mk f2 e =>
      have h2 : RunInv f2 := by
        have hres := runInv_transition f x
          (fun p hp q hq => ((hg.2.2.2.2 p hp).2 q hq).2) hi
        rw [ht] at hres
        exact hres
      have hcfg2 : f2.config = f.config := by
        have hfr := (Transition_frame f x).1
        rw [ht] at hfr
        exact hfr
      cases e with
      | some err => exact h2
      | none => exact ih f2 (pos + 1) (by rw [hcfg2]; exact hg) h2

/-- C7: `IsInFinalState` is true exactly when the current state is a
member of the engine's final-state set; when that set is empty it is
false; no operation ever changes the final-state set, so this holds in
every reachable run state; and for an engine built by `NewFSM` the
final-state set is exactly the configured `FinalStates`. -/
theorem claim7_isInFinalState (f : FSM S I) :
    (f.IsInFinalState = true ↔ f.currentState ∈ f.finalStateSet) ∧
    (f.finalStateSet = [] → f.IsInFinalState = false) ∧
    (∀ x, (f.Transition x).1.finalStateSet = f.finalStateSet) ∧
    (f.Reset.finalStateSet = f.finalStateSet) ∧
    (∀ l, (f.Process l).1.finalStateSet = f.finalStateSet) ∧
    (∀ l, (f.Execute l).1.finalStateSet = f.finalStateSet) ∧
    (∀ cfg, NewFSM cfg = .ok f → f.finalStateSet = cfg.FinalStates) := by
  refine ⟨?_, ?_, ?_, rfl, ?_, ?_, ?_⟩
  · unfold FSM.IsInFinalState
    by_cases he : f.finalStateSet.isEmpty
    · rw [if_pos he]
      rw [List.isEmpty_iff] at he
      constructor
      · intro h
        exact absurd h (by simp)
      · intro hmem
        rw [he] at hmem
        exact absurd hmem (by simp)
    · rw [if_neg he]
      simp
  · intro h
    unfold FSM.IsInFinalState
    rw [if_pos (by simp [h])]
  · intro x
    exact (Transition_frame f x).2.2
  · intro l
    exact (ProcessFrom_frame l f 0).2.2
  · intro l
    exact (ProcessFrom_frame l f.Reset 0).2.2
  · intro cfg hok
    exact (newFSM_ok_elim hok).2.2.2.2.1

/-- Witness for C7: the freshly built modulo-3 engine's final-state set
is the configured one, namely all three states. -/
theorem claim7_isInFinalState_witness :
    modThreeFSM.finalStateSet = modThreeConfig.FinalStates :=
  (claim7_isInFinalState modThreeFSM).2.2.2.2.2.2 modThreeConfig rfl

/-- C8: on the modulo-3 wrapper, for every string of binary characters
(including the empty string) `ComputeModThree` returns the value of the
string read as a binary numeral reduced modulo 3, with success flag true;
in particular the result for "110" is remainder 0 and for "1101" is
remainder 1. -/
theorem claim8_computeModThree :
    (∀ m : FSM Nat Char, m.config = modThreeConfig → m.alphabetSet = ['0', '1'] →
      ∀ l : List Char, (∀ c ∈ l, c = '0' ∨ c = '1') →
        (ComputeModThree m l).1 = (binVal l % 3, true)) ∧
    (ComputeModThree modThreeFSM ['1', '1', '0']).1 = (0, true) ∧
    (ComputeModThree modThreeFSM ['1', '1', '0', '1']).1 = (1, true) := by
  refine ⟨?_, rfl, rfl⟩
  intro m hcfg halpha l hbin
  by_cases hnil : l = [] ∨ l = ['0']
  · have hpi : ParseInput m l = .ok none := by
      unfold ParseInput
      rw [if_pos hnil]
    unfold ComputeModThree
    rw [hpi]
    rcases hnil with rfl | rfl <;> rfl
  · have hpl := parseLoop_ok l m 0 halpha hbin
    have hpi : ParseInput m l = .ok (some l) := by
      unfold ParseInput
      rw [if_neg hnil, hpl]
      rfl
    have hex := modThree_execute m hcfg l hbin
    unfold ComputeModThree
    rw [hpi]
    split
    · next _ val heq => exact absurd heq (by simp)
    · next _ heq => exact absurd heq (by simp)
    · next _ inputs heq =>
      obtain rfl : l = inputs := Option.some.inj (Except.ok.inj heq)
      split
      · next g val heq2 =>
        rw [heq2] at hex
        exact absurd hex.1 (by simp)
      · next g heq2 =>
        rw [heq2] at hex
        have hcur2 : g.currentState = binVal l % 3 := hex.2
        show (g.CurrentState, true) = (binVal l % 3, true)
        rw [show g.CurrentState = g.currentState from rfl, hcur2]

/-- Witness for C8: on the binary string "10" the wrapper returns the
remainder of 2 modulo 3 with success flag true. -/
theorem claim8_computeModThree_witness :
    (ComputeModThree modThreeFSM ['1', '0']).1 = (binVal ['1', '0'] % 3, true) :=
  claim8_computeModThree.1 modThreeFSM rfl rfl ['1', '0'] (by decide)

/-- C9: for every string containing a character outside the binary
alphabet there is a first such character; `ParseInput` fails with an
error naming that character and its zero-based position, and
`IsDivisibleByThree` returns false while leaving the engine's run state
unchanged (the engine is never executed). -/
theorem claim9_parse_rejects (m : FSM Nat Char) (l : List Char)
    (halpha : m.alphabetSet = ['0', '1'])
    (hex : ∃ c ∈ l, ¬(c = '0' ∨ c = '1')) :
    ∃ k, ∃ (hk : k < l.length),
      ¬(l.get ⟨k, hk⟩ = '0' ∨ l.get ⟨k, hk⟩ = '1') ∧
      (∀ j (hj : j < k), l.get ⟨j, hj.trans hk⟩ = '0' ∨ l.get ⟨j, hj.trans hk⟩ = '1') ∧
      ParseInput m l = .error (.invalidChar (l.get ⟨k, hk⟩) k) ∧
      IsDivisibleByThree m l = (false, m) := by
  obtain ⟨k, hk, hbad, hgood⟩ :=
    exists_first_violation (fun c => c = '0' ∨ c = '1') l hex
  have hne : ¬(l = [] ∨ l = ['0']) := by
    rintro (rfl | rfl)
    · exact absurd hk (by simp)
    · have hk0 : k = 0 := by
        have := hk
        simp at this
        omega
      subst hk0
      exact hbad (Or.inl rfl)
  have hperr := parseLoop_err l m 0 k hk halpha hbad hgood
  rw [Nat.zero_add] at hperr
  have hpi : ParseInput m l = .error (.invalidChar (l.get ⟨k, hk⟩) k) := by
    unfold ParseInput
    rw [if_neg hne, hperr]
    rfl
  refine ⟨k, hk, hbad, hgood, hpi, ?_⟩
  unfold IsDivisibleByThree ComputeModThree
  rw [hpi]
  rfl

/-- Witness for C9: the string "102" contains the invalid character '2'
at position 2 and is rejected. -/
theorem claim9_parse_rejects_witness :
    ∃ k, ∃ (hk : k < (['1', '0', '2'] : List Char).length),
      ¬((['1', '0', '2'] : List Char).get ⟨k, hk⟩ = '0' ∨
        (['1', '0', '2'] : List Char).get ⟨k, hk⟩ = '1') ∧
      (∀ j (hj : j < k),
        (['1', '0', '2'] : List Char).get ⟨j, hj.trans hk⟩ = '0' ∨
        (['1', '0', '2'] : List Char).get ⟨j, hj.trans hk⟩ = '1') ∧
      ParseInput modThreeFSM ['1', '0', '2'] =
        .error (.invalidChar ((['1', '0', '2'] : List Char).get ⟨k, hk⟩) k) ∧
      IsDivisibleByThree modThreeFSM ['1', '0', '2'] = (false, modThreeFSM) :=
  claim9_parse_rejects modThreeFSM ['1', '0', '2'] rfl (by decide)

/-- C10: the run-state invariant (history non-empty, first element the
initial state, last element the current state, every element a declared
state, hence also the current state declared) is established by `NewFSM`
and preserved by `Reset`, `Transition`, `Process` and `Execute` on every
engine with a valid configuration. -/
theorem claim10_invariant :
    (∀ (cfg : FSMConfig S I) (f : FSM S I), NewFSM cfg = .ok f →
      RunInv f ∧ f.currentState ∈ f.config.States) ∧
    (∀ f : FSM S I, RunInv f → f.currentState ∈ f.config.States) ∧
    (∀ f : FSM S I, GoodConfig f.config → RunInv f → RunInv f.Reset) ∧
    (∀ (f : FSM S I) (x : I), GoodConfig f.config → RunInv f →
      RunInv (f.Transition x).1) ∧
    (∀ (f : FSM S I) (l : List I), GoodConfig f.config → RunInv f →
      RunInv (f.Process l).1) ∧
    (∀ (f : FSM S I) (l : List I), GoodConfig f.config → RunInv f →
      RunInv (f.Execute l).1) := by
  have hcur : ∀ f : FSM S I, RunInv f → f.currentState ∈ f.config.States := by
    intro f hi
    exact hi.2.2.2 f.currentState (List.mem_of_getLast?_eq_some hi.2.2.1)
  have hreset : ∀ f : FSM S I, GoodConfig f.config → RunInv f.Reset := by
    intro f hg
    refine ⟨by show ¬[f.config.InitialState] = []; simp, rfl, rfl, ?_⟩
    intro s hs
    rw [List.mem_singleton.mp hs]
    exact hg.2.2.1
  refine ⟨?_, hcur, fun f hg _ => hreset f hg, ?_, ?_, ?_⟩
  · intro cfg f hok
    obtain ⟨hcfg, hcs, hhist, _, _, hg⟩ := newFSM_ok_elim hok
    have hinv : RunInv f := by
      refine ⟨by rw [hhist]; simp, ?_, ?_, ?_⟩
      · rw [hhist, hcfg]
        rfl
      · rw [hhist, hcs]
        rfl
      · intro s hs
        rw [hhist] at hs
        rw [List.mem_singleton.mp hs, hcfg]
        exact hg.2.2.1
    exact ⟨hinv, hcur f hinv⟩
  · intro f x hg hi
    exact runInv_transition f x (fun p hp q hq => ((hg.2.2.2.2 p hp).2 q hq).2) hi
  · intro f l hg hi
    exact runInv_processFrom l f 0 hg hi
  · intro f l hg hi
    exact runInv_processFrom l f.Reset 0 hg (hreset f hg)

/-- Witness for C10: the freshly built modulo-3 engine satisfies the
run-state invariant and its current state is declared. -/
theorem claim10_invariant_witness :
    RunInv modThreeFSM ∧ modThreeFSM.currentState ∈ modThreeFSM.config.States :=
  claim10_invariant.1 modThreeConfig modThreeFSM (by rfl)

end FiniteAutomation
